import Mathlib

/- Shallow embedding of traj_dist/pydist/dtw.py.

The Python module defines three functions:
  * e_dtw(t0, t1): fills a padded (n0+1) x (n1+1) cost matrix C with
    C[0,0] = 0 and an infinite first row and column, then for each cell
    selects the predecessor by np.argmin over the candidate list
    [C[i, j-1], C[i-1, j-1], C[i-1, j]], records backpointers W (with None
    at the origin cell), and returns (C[n0,n1], C[1:,1:], W);
  * e_extract_dtw_warping_path(W): walks backpointers from
    (len(W)-1, len(W[0])-1) in a while-loop until reaching (0,0), then
    appends (0,0) and reverses;
  * s_dtw(t0, t1): the same recurrence with plain min and a great-circle
    point distance, returning only the scalar C[n0,n1].

Floats are modelled by an arbitrary linearly ordered additive monoid alpha
(instantiated at rationals and reals below); float('inf') is the top element
of WithTop alpha.  The point-distance collaborators (eucl_dist,
great_circle_distance) are parameters, as in the source, which only forwards
points to them.  The while-loop of the extractor is modelled with explicit
fuel; running out of fuel is the non-termination marker PyRes.dvg, and
Python exceptions (IndexError on bad subscripts, TypeError on subscripting
None) are PyRes.err. -/

set_option linter.unusedVariables false

variable {α : Type} [LinearOrderedAddCommMonoid α]

/-- First index among three candidates achieving the minimum value, exactly
as np.argmin behaves on the three-element candidate list
[C[i, j-1], C[i-1, j-1], C[i-1, j]] (source line 42): index 0 when the
first candidate is minimal, otherwise index 1 when the second is no larger
than the third, otherwise index 2. -/
def argmin3 {β : Type} [LinearOrder β] (a b c : β) : Fin 3 :=
  if a ≤ b ∧ a ≤ c then 0 else if b ≤ c then 1 else 2

/-- Subscripting of the three-element candidate list by an argmin index,
as the source's list subscripts on lines 43-44. -/
def pick3 {γ : Type} (x y z : γ) (k : Fin 3) : γ :=
  [x, y, z].get k

/-- Row 0 of the padded cost matrix: C[0,0] = 0 from np.zeros, and
C[0,j] = inf for j > 0 from the initialization C[0, 1:] = inf
(source lines 36, 39). -/
def row0 : Nat → WithTop α
  | 0 => 0
  | _ + 1 => ⊤

/-- Row i+1 of e_dtw's padded cost matrix, given the distance row
dRow j = dist(t0[i], t1[j]) and the previous matrix row: entry 0 is the
boundary inf from C[1:, 0] = inf (line 38); entry j+1 is
dist(t0[i], t1[j]) plus the candidate picked by np.argmin over
[left, diag, up] = [C[i+1, j], C[i, j], C[i, j+1]] (lines 42-45,
written 0-based in i and j here). -/
def nextRow (dRow : Nat → α) (prev : Nat → WithTop α) : Nat → WithTop α
  | 0 => ⊤
  | j + 1 =>
      let left := nextRow dRow prev j
      let diag := prev j
      let up := prev (j + 1)
      (dRow j : WithTop α) + pick3 left diag up (argmin3 left diag up)

/-- All rows of e_dtw's padded cost matrix, built row by row as the
row-major double loop of lines 40-45 does. -/
def Crow (d : Nat → Nat → α) : Nat → Nat → WithTop α
  | 0 => row0
  | i + 1 => nextRow (d i) (Crow d i)

/-- Entry (i, j) of e_dtw's padded cost matrix C, for the point-distance
matrix d i j = dist(t0[i], t1[j]) (0-based). -/
def Cmat (d : Nat → Nat → α) (i j : Nat) : WithTop α :=
  Crow d i j

/-- Backpointer cell W[i][j] of e_dtw (0-based trajectory index space,
i.e. padded cell (i+1, j+1)): None at the origin cell, and otherwise the
argmin-selected candidate coordinates in padded C-space with 1 subtracted
from each component (source lines 44, 46-49). -/
def Wmat (d : Nat → Nat → α) (i j : Nat) : Option (Int × Int) :=
  if i = 0 ∧ j = 0 then none
  else
    let left := Cmat d (i + 1) j
    let diag := Cmat d i j
    let up := Cmat d i (j + 1)
    let mif := pick3 ((i : Int) + 1, (j : Int)) ((i : Int), (j : Int))
      ((i : Int), (j : Int) + 1) (argmin3 left diag up)
    some (mif.1 - 1, mif.2 - 1)

/-- Row i+1 of s_dtw's padded cost matrix: as nextRow but with the plain
three-way min of source line 113 instead of the argmin-based selection. -/
def nextRowS (dRow : Nat → α) (prev : Nat → WithTop α) : Nat → WithTop α
  | 0 => ⊤
  | j + 1 =>
      (dRow j : WithTop α) +
        min (nextRowS dRow prev j) (min (prev j) (prev (j + 1)))

/-- All rows of s_dtw's padded cost matrix (source lines 107-113). -/
def CrowS (d : Nat → Nat → α) : Nat → Nat → WithTop α
  | 0 => row0
  | i + 1 => nextRowS (d i) (CrowS d i)

/-- Entry (i, j) of s_dtw's padded cost matrix. -/
def Cmat_s (d : Nat → Nat → α) (i j : Nat) : WithTop α :=
  CrowS d i j

/-- The point-distance matrix forwarded by e_dtw: d i j =
dist(t0[i], t1[j]) with 0-based indices (the source's
eucl_dist(t0[i-1], t1[j-1]) under its 1-based loop counters). -/
def dOf {P : Type} [Inhabited P] (dist : P → P → α) (t0 t1 : List P) :
    Nat → Nat → α :=
  fun i j => dist (t0.getD i default) (t1.getD j default)

/-- The backpointer matrix W returned by e_dtw, as a length-n0 list of
length-n1 lists (source lines 37, 46-49). -/
def Wlist (d : Nat → Nat → α) (n0 n1 : Nat) :
    List (List (Option (Int × Int))) :=
  (List.range n0).map (fun i => (List.range n1).map (fun j => Wmat d i j))

/-- The interior cost matrix C[1:, 1:] returned by e_dtw (source line 52). -/
def Clist (d : Nat → Nat → α) (n0 n1 : Nat) : List (List (WithTop α)) :=
  (List.range n0).map (fun i =>
    (List.range n1).map (fun j => Cmat d (i + 1) (j + 1)))

/-- The function e_dtw (source lines 10-52): returns the scalar distance
C[n0, n1], the interior cost matrix C[1:, 1:], and the backpointer
matrix W. -/
def e_dtw {P : Type} [Inhabited P] (dist : P → P → α) (t0 t1 : List P) :
    WithTop α × List (List (WithTop α)) × List (List (Option (Int × Int))) :=
  (Cmat (dOf dist t0 t1) t0.length t1.length,
   Clist (dOf dist t0 t1) t0.length t1.length,
   Wlist (dOf dist t0 t1) t0.length t1.length)

/-- The function s_dtw (source lines 89-115): the same recurrence driven by
great_circle_distance on the coordinate components, returning only the
scalar C[n0, n1]. -/
def s_dtw [Inhabited α] (gcd : α → α → α → α → α) (t0 t1 : List (α × α)) :
    WithTop α :=
  let d := fun i j => gcd (t0.getD i default).1 (t0.getD i default).2
    (t1.getD j default).1 (t1.getD j default).2
  Cmat_s d t0.length t1.length

/-- Result of running a Python computation for a bounded number of steps:
a returned value, a raised exception with its kind, or still running when
the step budget (fuel) is exhausted. -/
inductive PyRes (β : Type) where
  | ok : β → PyRes β
  | err : String → PyRes β
  | dvg : PyRes β
deriving DecidableEq, Repr

/-- Python list subscripting l[n] for an int n: negative indices count from
the end, and anything outside [-len(l), len(l)) raises IndexError. -/
def pyGet {β : Type} (l : List β) (n : Int) : Except String β :=
  let k : Int := if n < 0 then n + l.length else n
  if 0 ≤ k then
    match l.get? k.toNat with
    | some x => Except.ok x
    | none => Except.error "IndexError"
  else Except.error "IndexError"

/-- The while-loop of e_extract_dtw_warping_path (source lines 74-82),
with explicit fuel: while idxs != (0,0), append idxs to the path and
follow the backpointer W[idxs[0]][idxs[1]]; on exit append (0,0) and
reverse.  A None in place of an index pair raises TypeError when
subscripted (as None[0] does); bad subscripts raise IndexError via pyGet;
exhausted fuel yields dvg. -/
def extractLoop (W : List (List (Option (Int × Int)))) :
    List (Int × Int) → Option (Int × Int) → Nat → PyRes (List (Int × Int))
  | _, _, 0 => PyRes.dvg
  | path, idxs, fuel + 1 =>
      if idxs = some ((0 : Int), (0 : Int)) then
        PyRes.ok ((path ++ [((0 : Int), (0 : Int))]).reverse)
      else
        match idxs with
        | none => PyRes.err "TypeError"
        | some p =>
            match pyGet W p.1 with
            | Except.error e => PyRes.err e
            | Except.ok row =>
                match pyGet row p.2 with
                | Except.error e => PyRes.err e
                | Except.ok cell => extractLoop W (path ++ [p]) cell fuel

/-- The function e_extract_dtw_warping_path (source lines 54-82): start at
(len(W)-1, len(W[0])-1) and run the backpointer walk.  Evaluating
len(W[0]) on an empty W raises IndexError before the loop. -/
def e_extract_dtw_warping_path (W : List (List (Option (Int × Int))))
    (fuel : Nat) : PyRes (List (Int × Int)) :=
  match pyGet W 0 with
  | Except.error e => PyRes.err e
  | Except.ok row0 =>
      extractLoop W [] (some ((W.length : Int) - 1, (row0.length : Int) - 1))
        fuel

/-- The predecessor cell recorded at backpointer cell (i, j), in 0-based
natural coordinates: the argmin-selected candidate among
left = (i, j-1), diag = (i-1, j-1), up = (i-1, j). -/
def predCell (d : Nat → Nat → α) (i j : Nat) : Nat × Nat :=
  pick3 (i, j - 1) (i - 1, j - 1) (i - 1, j)
    (argmin3 (Cmat d (i + 1) j) (Cmat d i j) (Cmat d i (j + 1)))

/-- The backpointer chain of e_dtw's matrix from cell (i, j) down to the
origin, listed in ascending order (0,0), ..., (i, j); fuel bounds the
length (fuel > i + j always suffices). -/
def chainTo (d : Nat → Nat → α) : Nat → Nat → Nat → List (Nat × Nat)
  | 0, _, _ => []
  | fuel + 1, i, j =>
      if i = 0 ∧ j = 0 then [(0, 0)]
      else chainTo d fuel (predCell d i j).1 (predCell d i j).2 ++ [(i, j)]

/-- One legal step of an alignment path: each coordinate grows by 0 or 1
and the pair strictly advances. -/
def stepOK (p q : Int × Int) : Prop :=
  (q.1 = p.1 ∨ q.1 = p.1 + 1) ∧ (q.2 = p.2 ∨ q.2 = p.2 + 1) ∧ q ≠ p

/-- Absolute-value metric on the integers, used as a concrete metric
point-distance collaborator in counterexamples and witnesses. -/
def dabs (x y : ℤ) : ℤ := |x - y|

/-- Modelled from the spec: the planar Euclidean point-distance collaborator
eucl_dist of basic_euclidean (imported on source line 2 but not part of this
fragment); per sections 4.1 and 6 it is the planar Euclidean distance
between two coordinate pairs. -/
noncomputable def eucl_dist (p q : ℝ × ℝ) : ℝ :=
  Real.sqrt ((p.1 - q.1) ^ 2 + (p.2 - q.2) ^ 2)

/-- Equation: the origin cell of the padded cost matrix is 0. -/
theorem Cmat_zero_zero (d : Nat → Nat → α) : Cmat d 0 0 = 0 := rfl

/-- Equation: the first column of the padded cost matrix is infinite. -/
theorem Cmat_succ_zero (d : Nat → Nat → α) (i : Nat) :
    Cmat d (i + 1) 0 = ⊤ := rfl

/-- Equation: the first row of the padded cost matrix is infinite. -/
theorem Cmat_zero_succ (d : Nat → Nat → α) (j : Nat) :
    Cmat d 0 (j + 1) = ⊤ := rfl

/-- Equation: an interior cell adds the point distance to the
argmin-selected candidate among left, diag, up. -/
theorem Cmat_succ_succ (d : Nat → Nat → α) (i j : Nat) :
    Cmat d (i + 1) (j + 1) =
      (d i j : WithTop α) +
        pick3 (Cmat d (i + 1) j) (Cmat d i j) (Cmat d i (j + 1))
          (argmin3 (Cmat d (i + 1) j) (Cmat d i j) (Cmat d i (j + 1))) := rfl

/-- Equation lemmas for the spherical matrix. -/
theorem Cmat_s_zero_zero (d : Nat → Nat → α) : Cmat_s d 0 0 = 0 := rfl

/-- Equation: first column of the spherical padded matrix. -/
theorem Cmat_s_succ_zero (d : Nat → Nat → α) (i : Nat) :
    Cmat_s d (i + 1) 0 = ⊤ := rfl

/-- Equation: first row of the spherical padded matrix. -/
theorem Cmat_s_zero_succ (d : Nat → Nat → α) (j : Nat) :
    Cmat_s d 0 (j + 1) = ⊤ := rfl

/-- Equation: interior cell of the spherical padded matrix uses the plain
three-way min. -/
theorem Cmat_s_succ_succ (d : Nat → Nat → α) (i j : Nat) :
    Cmat_s d (i + 1) (j + 1) =
      (d i j : WithTop α) +
        min (Cmat_s d (i + 1) j) (min (Cmat_s d i j) (Cmat_s d i (j + 1))) :=
  rfl

/-- Enumeration of the three argmin indices. -/
theorem fin3_cases (k : Fin 3) : k = 0 ∨ k = 1 ∨ k = 2 := by omega

/-- The candidate selected by np.argmin is the minimum of the three
candidates: first-occurrence selection does not change the selected value. -/
theorem pick3_argmin3 {β : Type} [LinearOrder β] (a b c : β) :
    pick3 a b c (argmin3 a b c) = min a (min b c) := by
  unfold argmin3
  split_ifs with h1 h2
  · show a = min a (min b c)
    exact (min_eq_left (le_min h1.1 h1.2)).symm
  · show b = min a (min b c)
    have hba : b ≤ a := by
      rcases not_and_or.mp h1 with h | h
      · exact le_of_lt (lt_of_not_le h)
      · exact h2.trans (le_of_lt (lt_of_not_le h))
    rw [min_eq_left h2, min_eq_right hba]
  · show c = min a (min b c)
    have hcb : c ≤ b := le_of_lt (lt_of_not_le h2)
    have hca : c ≤ a := by
      rcases not_and_or.mp h1 with h | h
      · exact hcb.trans (le_of_lt (lt_of_not_le h))
      · exact le_of_lt (lt_of_not_le h)
    rw [min_eq_right hcb, min_eq_right hca]

/-- Condition for argmin to return the first index. -/
theorem argmin3_eq_zero {β : Type} [LinearOrder β] {a b c : β}
    (h1 : a ≤ b) (h2 : a ≤ c) : argmin3 a b c = 0 := by
  unfold argmin3
  rw [if_pos ⟨h1, h2⟩]

/-- Condition for argmin to return the second index. -/
theorem argmin3_eq_one {β : Type} [LinearOrder β] {a b c : β}
    (h1 : ¬(a ≤ b ∧ a ≤ c)) (h2 : b ≤ c) : argmin3 a b c = 1 := by
  unfold argmin3
  rw [if_neg h1, if_pos h2]

/-- Condition for argmin to return the third index. -/
theorem argmin3_eq_two {β : Type} [LinearOrder β] {a b c : β}
    (h1 : ¬(a ≤ b ∧ a ≤ c)) (h2 : ¬ b ≤ c) : argmin3 a b c = 2 := by
  unfold argmin3
  rw [if_neg h1, if_neg h2]

/-- A min with a finite left argument is finite. -/
theorem min_ne_top_left {a b : WithTop α} (h : a ≠ ⊤) : min a b ≠ ⊤ :=
  fun hc => h (top_le_iff.mp (hc ▸ min_le_left a b))

/-- A min with a finite right argument is finite. -/
theorem min_ne_top_right {a b : WithTop α} (h : b ≠ ⊤) : min a b ≠ ⊤ :=
  fun hc => h (top_le_iff.mp (hc ▸ min_le_right a b))

/-- The Euclidean and spherical row constructions agree pointwise: the
argmin-based selection picks the same value as the plain min. -/
theorem nextRow_eq_nextRowS (dRow : Nat → α) (prev prev' : Nat → WithTop α)
    (h : ∀ j, prev j = prev' j) :
    ∀ j, nextRow dRow prev j = nextRowS dRow prev' j := by
  intro j
  induction j with
  | zero => rfl
  | succ j ih =>
      show (dRow j : WithTop α) + _ = (dRow j : WithTop α) + _
      rw [pick3_argmin3, ih, h j, h (j + 1)]

/-- The two engines fill identical padded cost matrices: backpointer
tracking and first-minimum selection do not change the cell values. -/
theorem Cmat_eq_Cmat_s (d : Nat → Nat → α) (i j : Nat) :
    Cmat d i j = Cmat_s d i j := by
  induction i generalizing j with
  | zero => rfl
  | succ i ih => exact nextRow_eq_nextRowS (d i) (Crow d i) (CrowS d i) ih j

/-- Entries of the boundary row are non-negative. -/
theorem row0_nonneg : ∀ j, (0 : WithTop α) ≤ row0 j
  | 0 => le_refl 0
  | _ + 1 => le_top

/-- A row built from a non-negative distance row and a non-negative
previous row is non-negative. -/
theorem nextRow_nonneg (dRow : Nat → α) (prev : Nat → WithTop α)
    (hd : ∀ j, 0 ≤ dRow j) (hp : ∀ j, 0 ≤ prev j) :
    ∀ j, 0 ≤ nextRow dRow prev j := by
  intro j
  induction j with
  | zero => exact le_top
  | succ j ih =>
      show (0 : WithTop α) ≤ (dRow j : WithTop α) + pick3 _ _ _ _
      rw [pick3_argmin3]
      exact add_nonneg (by exact_mod_cast hd j)
        (le_min ih (le_min (hp j) (hp (j + 1))))

/-- With a non-negative point distance, every cell of the padded cost
matrix is non-negative. -/
theorem Cmat_nonneg (d : Nat → Nat → α) (hd : ∀ i j, 0 ≤ d i j) :
    ∀ i j, 0 ≤ Cmat d i j := by
  intro i
  induction i with
  | zero => exact fun j => row0_nonneg j
  | succ i ih => exact fun j => nextRow_nonneg (d i) (Crow d i) (hd i) ih j

/-- If the previous row has a finite entry at position 0 or 1, every
interior entry of the next row is finite. -/
theorem nextRow_ne_top (dRow : Nat → α) (prev : Nat → WithTop α)
    (h0 : prev 0 ≠ ⊤ ∨ prev 1 ≠ ⊤) :
    ∀ j, nextRow dRow prev (j + 1) ≠ ⊤ := by
  intro j
  induction j with
  | zero =>
      show (dRow 0 : WithTop α) + pick3 _ _ _ _ ≠ ⊤
      rw [pick3_argmin3, Ne, WithTop.add_eq_top]
      push_neg
      refine ⟨WithTop.coe_ne_top, ?_⟩
      rcases h0 with h | h
      · exact min_ne_top_right (min_ne_top_left h)
      · exact min_ne_top_right (min_ne_top_right h)
  | succ j ih =>
      show (dRow (j + 1) : WithTop α) + pick3 _ _ _ _ ≠ ⊤
      rw [pick3_argmin3, Ne, WithTop.add_eq_top]
      push_neg
      exact ⟨WithTop.coe_ne_top, min_ne_top_left ih⟩

/-- Every interior cell of the padded cost matrix is finite: the point
distance is a real number and a finite candidate is always available. -/
theorem Cmat_ne_top (d : Nat → Nat → α) :
    ∀ i j, Cmat d (i + 1) (j + 1) ≠ ⊤ := by
  intro i
  induction i with
  | zero =>
      exact nextRow_ne_top (d 0) (Crow d 0) (Or.inl WithTop.zero_ne_top)
  | succ i ih =>
      exact nextRow_ne_top (d (i + 1)) (Crow d (i + 1)) (Or.inr (ih 0))

/-- In row 0 of the backpointer matrix the argmin always selects the left
candidate: left is the only finite candidate (or everything is infinite and
the first index wins the tie). -/
theorem argmin3_row_zero (d : Nat → Nat → α) (j : Nat) :
    argmin3 (Cmat d (0 + 1) (j + 1)) (Cmat d 0 (j + 1)) (Cmat d 0 (j + 1 + 1))
      = 0 := by
  rw [Cmat_zero_succ, Cmat_zero_succ]
  exact argmin3_eq_zero le_top le_top

/-- In column 0 of the backpointer matrix the argmin always selects the up
candidate: left and diag are the infinite boundary while up is finite. -/
theorem argmin3_col_zero (d : Nat → Nat → α) (i : Nat) :
    argmin3 (Cmat d (i + 1 + 1) 0) (Cmat d (i + 1) 0) (Cmat d (i + 1) (0 + 1))
      = 2 := by
  rw [Cmat_succ_zero, Cmat_succ_zero]
  have hup : Cmat d (i + 1) (0 + 1) ≠ ⊤ := Cmat_ne_top d i 0
  refine argmin3_eq_two ?_ ?_
  · intro hc
    exact hup (top_le_iff.mp hc.2)
  · intro hc
    exact hup (top_le_iff.mp hc)

/-- The recorded backpointer is the coercion of the natural-number
predecessor cell: in particular it never has a negative component, since on
the boundary rows the argmin always selects an in-range candidate. -/
theorem Wmat_eq_predCell (d : Nat → Nat → α) (i j : Nat)
    (h : ¬(i = 0 ∧ j = 0)) :
    Wmat d i j =
      some (((predCell d i j).1 : Int), ((predCell d i j).2 : Int)) := by
  match i, j with
  | 0, 0 => exact absurd ⟨rfl, rfl⟩ h
  | 0, jj + 1 =>
      simp only [Wmat, predCell, argmin3_row_zero d jj]
      rw [if_neg (by simp)]
      simp only [pick3, List.get, Option.some.injEq, Prod.mk.injEq]
      omega
  | ii + 1, 0 =>
      simp only [Wmat, predCell, argmin3_col_zero d ii]
      rw [if_neg (by simp)]
      simp only [pick3, List.get, Option.some.injEq, Prod.mk.injEq]
      omega
  | ii + 1, jj + 1 =>
      simp only [Wmat, predCell]
      rw [if_neg (by simp)]
      rcases fin3_cases (argmin3 (Cmat d (ii + 1 + 1) (jj + 1))
          (Cmat d (ii + 1) (jj + 1)) (Cmat d (ii + 1) (jj + 1 + 1))) with
        hk | hk | hk <;>
      · rw [hk]
        simp only [pick3, List.get, Option.some.injEq, Prod.mk.injEq]
        omega

theorem predCell_shape (d : Nat → Nat → α) (i j : Nat)
    (h : ¬(i = 0 ∧ j = 0)) :
    (1 ≤ j ∧ predCell d i j = (i, j - 1)) ∨
    (1 ≤ i ∧ 1 ≤ j ∧ predCell d i j = (i - 1, j - 1)) ∨
    (1 ≤ i ∧ predCell d i j = (i - 1, j)) := by
  match i, j with
  | 0, 0 => exact absurd ⟨rfl, rfl⟩ h
  | 0, jj + 1 =>
      left
      refine ⟨Nat.succ_le_succ (Nat.zero_le jj), ?_⟩
      simp only [predCell, argmin3_row_zero d jj, pick3, List.get]
  | ii + 1, 0 =>
      right; right
      refine ⟨Nat.succ_le_succ (Nat.zero_le ii), ?_⟩
      simp only [predCell, argmin3_col_zero d ii, pick3, List.get]
  | ii + 1, jj + 1 =>
      rcases fin3_cases (argmin3 (Cmat d (ii + 1 + 1) (jj + 1))
          (Cmat d (ii + 1) (jj + 1)) (Cmat d (ii + 1) (jj + 1 + 1))) with
        hk | hk | hk
      · left
        exact ⟨Nat.succ_le_succ (Nat.zero_le jj),
          by simp only [predCell, hk, pick3, List.get]⟩
      · right; left
        exact ⟨Nat.succ_le_succ (Nat.zero_le ii),
          Nat.succ_le_succ (Nat.zero_le jj),
          by simp only [predCell, hk, pick3, List.get]⟩
      · right; right
        exact ⟨Nat.succ_le_succ (Nat.zero_le ii),
          by simp only [predCell, hk, pick3, List.get]⟩

/-- The predecessor strictly decreases the coordinate sum. -/
theorem predCell_sum_lt (d : Nat → Nat → α) (i j : Nat)
    (h : ¬(i = 0 ∧ j = 0)) :
    (predCell d i j).1 + (predCell d i j).2 < i + j := by
  rcases predCell_shape d i j h with ⟨hj, he⟩ | ⟨hi, hj, he⟩ | ⟨hi, he⟩ <;>
    rw [he] <;> dsimp only <;> omega

/-- The predecessor stays within the rectangle of its cell. -/
theorem predCell_le (d : Nat → Nat → α) (i j : Nat)
    (h : ¬(i = 0 ∧ j = 0)) :
    (predCell d i j).1 ≤ i ∧ (predCell d i j).2 ≤ j := by
  rcases predCell_shape d i j h with ⟨hj, he⟩ | ⟨hi, hj, he⟩ | ⟨hi, he⟩ <;>
    rw [he] <;> dsimp only <;> constructor <;> omega

/-- The backpointer chain always begins at the origin. -/
theorem chainTo_cons (d : Nat → Nat → α) :
    ∀ fuel i j, i + j < fuel →
      ∃ t, chainTo d fuel i j = (0, 0) :: t := by
  intro fuel
  induction fuel with
  | zero => intro i j h; omega
  | succ fuel ih =>
      intro i j h
      by_cases h00 : i = 0 ∧ j = 0
      · exact ⟨[], by simp [chainTo, h00]⟩
      · have hlt := predCell_sum_lt d i j h00
        obtain ⟨t, ht⟩ := ih (predCell d i j).1 (predCell d i j).2 (by omega)
        refine ⟨t ++ [(i, j)], ?_⟩
        simp only [chainTo, if_neg h00, ht]
        rfl

/-- The backpointer chain ends at its own cell. -/
theorem chainTo_getLast (d : Nat → Nat → α) :
    ∀ fuel i j, i + j < fuel →
      (chainTo d fuel i j).getLast? = some (i, j) := by
  intro fuel
  induction fuel with
  | zero => intro i j h; omega
  | succ fuel ih =>
      intro i j h
      by_cases h00 : i = 0 ∧ j = 0
      · obtain ⟨rfl, rfl⟩ := h00
        simp [chainTo]
      · simp only [chainTo, if_neg h00]
        exact List.getLast?_concat _

/-- Consecutive cells of the backpointer chain advance each coordinate by
0 or 1 and never repeat a cell. -/
theorem chainTo_chain (d : Nat → Nat → α) :
    ∀ fuel i j, i + j < fuel →
      List.Chain'
        (fun p q : Nat × Nat =>
          (q.1 = p.1 ∨ q.1 = p.1 + 1) ∧ (q.2 = p.2 ∨ q.2 = p.2 + 1) ∧ q ≠ p)
        (chainTo d fuel i j) := by
  intro fuel
  induction fuel with
  | zero => intro i j h; omega
  | succ fuel ih =>
      intro i j h
      by_cases h00 : i = 0 ∧ j = 0
      · obtain ⟨rfl, rfl⟩ := h00
        simp [chainTo]
      · have hlt := predCell_sum_lt d i j h00
        simp only [chainTo, if_neg h00]
        rw [List.chain'_append]
        refine ⟨ih _ _ (by omega), List.chain'_singleton _, ?_⟩
        intro x hx y hy
        rw [chainTo_getLast d fuel _ _ (by omega), Option.mem_def,
          Option.some.injEq] at hx
        rw [List.head?_cons, Option.mem_def, Option.some.injEq] at hy
        subst hx
        subst hy
        rcases predCell_shape d i j h00 with ⟨hj1, he⟩ | ⟨hi1, hj1, he⟩ |
          ⟨hi1, he⟩ <;>
          rw [he] <;>
          refine ⟨by dsimp only; omega, by dsimp only; omega, ?_⟩ <;>
          · intro hc
            rw [Prod.ext_iff] at hc
            dsimp only at hc
            omega

/-- Every cell on the backpointer chain stays within the rectangle of the
starting cell. -/
theorem chainTo_bounds (d : Nat → Nat → α) :
    ∀ fuel i j, i + j < fuel →
      ∀ p ∈ chainTo d fuel i j, p.1 ≤ i ∧ p.2 ≤ j := by
  intro fuel
  induction fuel with
  | zero => intro i j h; omega
  | succ fuel ih =>
      intro i j h
      by_cases h00 : i = 0 ∧ j = 0
      · obtain ⟨rfl, rfl⟩ := h00
        intro p hp
        simp [chainTo] at hp
        simp [hp]
      · have hlt := predCell_sum_lt d i j h00
        have hle := predCell_le d i j h00
        simp only [chainTo, if_neg h00]
        intro p hp
        rcases List.mem_append.mp hp with hp | hp
        · have := ih _ _ (by omega) p hp
          omega
        · rw [List.mem_singleton] at hp
          subst hp
          omega

/-- Python subscripting at an in-range natural index returns the element. -/
theorem pyGet_coe {β : Type} (l : List β) (k : Nat) (hk : k < l.length) :
    pyGet l (k : Int) = Except.ok (l.get ⟨k, hk⟩) := by
  simp only [pyGet]
  rw [if_neg (by omega : ¬ (k : Int) < 0), if_pos (by omega : (0 : Int) ≤ k),
    Int.toNat_natCast, List.get?_eq_get hk]

/-- The backpointer matrix has one row per point of t0. -/
theorem Wlist_length (d : Nat → Nat → α) (n0 n1 : Nat) :
    (Wlist d n0 n1).length = n0 := by
  simp [Wlist]

/-- Subscripting the backpointer matrix at an in-range row index. -/
theorem Wlist_row (d : Nat → Nat → α) (n0 n1 i : Nat) (hi : i < n0) :
    pyGet (Wlist d n0 n1) (i : Int) =
      Except.ok ((List.range n1).map (fun j => Wmat d i j)) := by
  rw [pyGet_coe (Wlist d n0 n1) i (by rw [Wlist_length]; omega)]
  congr 1
  simp [Wlist, List.get_eq_getElem]

/-- Subscripting a backpointer row at an in-range column index. -/
theorem Wlist_cell (d : Nat → Nat → α) (n1 i j : Nat) (hj : j < n1) :
    pyGet ((List.range n1).map (fun j => Wmat d i j)) (j : Int) =
      Except.ok (Wmat d i j) := by
  rw [pyGet_coe _ j (by simp; omega)]
  congr 1
  simp [List.get_eq_getElem]

/-- Running the extraction while-loop from an in-range cell of e_dtw's
backpointer matrix with enough fuel follows the chain down to the origin and
returns the ascending chain (the appended-then-reversed Python path). -/
theorem extractLoop_chain (d : Nat → Nat → α) (n0 n1 : Nat) :
    ∀ fuel i j acc, i < n0 → j < n1 → i + j < fuel →
      extractLoop (Wlist d n0 n1) acc (some ((i : Int), (j : Int))) fuel =
        PyRes.ok
          ((chainTo d fuel i j).map (fun p => ((p.1 : Int), (p.2 : Int)))
            ++ acc.reverse) := by
  intro fuel
  induction fuel with
  | zero => intro i j acc hi hj h; omega
  | succ fuel ih =>
      intro i j acc hi hj h
      by_cases h00 : i = 0 ∧ j = 0
      · obtain ⟨rfl, rfl⟩ := h00
        simp [extractLoop, chainTo]
      · have hne : (some ((i : Int), (j : Int)) : Option (Int × Int)) ≠
            some ((0 : Int), (0 : Int)) := by
          simp only [Ne, Option.some.injEq, Prod.mk.injEq]
          omega
        have hlt := predCell_sum_lt d i j h00
        have hle := predCell_le d i j h00
        simp only [extractLoop, if_neg hne]
        rw [Wlist_row d n0 n1 i hi]
        dsimp only
        rw [Wlist_cell d n1 i j hj]
        dsimp only
        rw [Wmat_eq_predCell d i j h00]
        rw [ih (predCell d i j).1 (predCell d i j).2
          (acc ++ [((i : Int), (j : Int))]) (by omega) (by omega) (by omega)]
        simp only [chainTo, if_neg h00, List.map_append, List.map_cons,
          List.map_nil, List.reverse_append, List.reverse_cons,
          List.reverse_nil, List.nil_append, List.append_assoc,
          List.cons_append, List.singleton_append]

/-- For non-degenerate shapes and enough fuel, the extractor applied to
e_dtw's backpointer matrix walks from the terminal cell and returns the
ascending backpointer chain. -/
theorem extract_on_Wlist (d : Nat → Nat → α) (n0 n1 : Nat)
    (h0 : 1 ≤ n0) (h1 : 1 ≤ n1) (fuel : Nat) (hf : n0 + n1 - 1 ≤ fuel) :
    e_extract_dtw_warping_path (Wlist d n0 n1) fuel =
      PyRes.ok ((chainTo d fuel (n0 - 1) (n1 - 1)).map
        (fun p => ((p.1 : Int), (p.2 : Int)))) := by
  unfold e_extract_dtw_warping_path
  have hrow : pyGet (Wlist d n0 n1) 0 =
      Except.ok ((List.range n1).map (fun j => Wmat d 0 j)) := by
    have h := Wlist_row d n0 n1 0 (by omega)
    simpa using h
  rw [hrow]
  dsimp only
  have hstart :
      ((((Wlist d n0 n1).length : Int) - 1,
        ((((List.range n1).map (fun j => Wmat d 0 j)).length : Int) - 1)) :
        Int × Int) =
      (((n0 - 1 : Nat) : Int), ((n1 - 1 : Nat) : Int)) := by
    rw [Wlist_length]
    simp only [List.length_map, List.length_range, Prod.mk.injEq]
    omega
  rw [hstart]
  rw [extractLoop_chain d n0 n1 fuel (n0 - 1) (n1 - 1) [] (by omega)
    (by omega) (by omega)]
  simp

/-- The spherical matrix has finite interior cells too (transfer through
engine agreement). -/
theorem Cmat_s_ne_top (d : Nat → Nat → α) :
    ∀ i j, Cmat_s d (i + 1) (j + 1) ≠ ⊤ := by
  intro i j
  rw [← Cmat_eq_Cmat_s]
  exact Cmat_ne_top d i j

/-- Access to a cell of the returned backpointer matrix. -/
theorem Wlist_getD (d : Nat → Nat → α) (n0 n1 i j : Nat)
    (hi : i < n0) (hj : j < n1) :
    ((Wlist d n0 n1).getD i []).getD j none = Wmat d i j := by
  simp [Wlist, List.getD_eq_getElem?_getD, List.getElem?_map,
    List.getElem?_range, hi, hj]

/-- The argmin-selected candidate is no larger than each of the three. -/
theorem pick3_argmin3_le {β : Type} [LinearOrder β] (a b c : β) (m : Fin 3) :
    pick3 a b c (argmin3 a b c) ≤ pick3 a b c m := by
  rw [pick3_argmin3]
  fin_cases m
  · exact min_le_left a (min b c)
  · exact le_trans (min_le_right a (min b c)) (min_le_left b c)
  · exact le_trans (min_le_right a (min b c)) (min_le_right b c)

/-- Candidates strictly before the argmin index are strictly larger: the
argmin index is the first index achieving the minimum. -/
theorem pick3_argmin3_first {β : Type} [LinearOrder β] (a b c : β)
    (m : Fin 3) (hm : m < argmin3 a b c) :
    pick3 a b c (argmin3 a b c) < pick3 a b c m := by
  rcases fin3_cases (argmin3 a b c) with hk | hk | hk <;> rw [hk] at hm ⊢
  · exact absurd hm (by omega)
  · have hm0 : m = 0 := by omega
    subst hm0
    unfold argmin3 at hk
    split_ifs at hk with h1 h2
    · exact absurd hk (by decide)
    · show b < a
      rcases not_and_or.mp h1 with h | h
      · exact lt_of_not_le h
      · exact lt_of_le_of_lt h2 (lt_of_not_le h)
    · exact absurd hk (by decide)
  · unfold argmin3 at hk
    split_ifs at hk with h1 h2
    · exact absurd hk (by decide)
    · exact absurd hk (by decide)
    · have hcb : c < b := lt_of_not_le h2
      have hca : c < a := by
        rcases not_and_or.mp h1 with h | h
        · exact lt_trans hcb (lt_of_not_le h)
        · exact lt_of_not_le h
      have hm01 : m = 0 ∨ m = 1 := by omega
      rcases hm01 with rfl | rfl
      · exact hca
      · exact hcb

/-- C1: at every non-origin cell of the backpointer matrix returned by
e_dtw, the recorded predecessor is the candidate at the first index of the
ordered list [left, diag, up] that achieves the minimum candidate cost:
it is minimal among the three, and every earlier candidate is strictly
larger, so on a tie between left and diag (or left and up, or diag and up)
the earlier candidate wins.  The embedding is a pure function of its
inputs, so repeated calls record identical backpointers. -/
theorem claim1_tiebreak {P : Type} [Inhabited P] (dist : P → P → α)
    (t0 t1 : List P) (i j : Nat) (hi : i < t0.length) (hj : j < t1.length)
    (h00 : ¬(i = 0 ∧ j = 0)) :
    ∃ k : Fin 3,
      ((e_dtw dist t0 t1).2.2.getD i []).getD j none =
        some (pick3 ((i : Int), (j : Int) - 1)
          ((i : Int) - 1, (j : Int) - 1) ((i : Int) - 1, (j : Int)) k) ∧
      (∀ m : Fin 3,
        pick3 (Cmat (dOf dist t0 t1) (i + 1) j) (Cmat (dOf dist t0 t1) i j)
            (Cmat (dOf dist t0 t1) i (j + 1)) k ≤
          pick3 (Cmat (dOf dist t0 t1) (i + 1) j) (Cmat (dOf dist t0 t1) i j)
            (Cmat (dOf dist t0 t1) i (j + 1)) m) ∧
      (∀ m : Fin 3, m < k →
        pick3 (Cmat (dOf dist t0 t1) (i + 1) j) (Cmat (dOf dist t0 t1) i j)
            (Cmat (dOf dist t0 t1) i (j + 1)) k <
          pick3 (Cmat (dOf dist t0 t1) (i + 1) j) (Cmat (dOf dist t0 t1) i j)
            (Cmat (dOf dist t0 t1) i (j + 1)) m) := by
  refine ⟨argmin3 (Cmat (dOf dist t0 t1) (i + 1) j) (Cmat (dOf dist t0 t1) i j)
    (Cmat (dOf dist t0 t1) i (j + 1)), ?_, pick3_argmin3_le _ _ _,
    pick3_argmin3_first _ _ _⟩
  show (Wlist (dOf dist t0 t1) t0.length t1.length |>.getD i []).getD j none
    = _
  rw [Wlist_getD (dOf dist t0 t1) t0.length t1.length i j hi hj]
  unfold Wmat
  rw [if_neg h00]
  dsimp only
  rcases fin3_cases (argmin3 (Cmat (dOf dist t0 t1) (i + 1) j)
      (Cmat (dOf dist t0 t1) i j) (Cmat (dOf dist t0 t1) i (j + 1))) with
    hk | hk | hk <;>
  · rw [hk]
    simp only [pick3, List.get, Option.some.injEq, Prod.mk.injEq,
      and_true, true_and]
    try omega

/-- C1 witness: a concrete instantiation of the tie-break theorem with the
absolute-value metric at cell (1, 0). -/
theorem claim1_witness :
    (1 < ([(0 : ℤ), 1]).length ∧ 0 < ([(0 : ℤ)]).length ∧
      ¬(1 = 0 ∧ 0 = 0)) ∧
    ∃ k : Fin 3,
      ((e_dtw dabs [(0 : ℤ), 1] [(0 : ℤ)]).2.2.getD 1 []).getD 0 none =
        some (pick3 ((1 : Int), (0 : Int) - 1)
          ((1 : Int) - 1, (0 : Int) - 1) ((1 : Int) - 1, (0 : Int)) k) ∧
      (∀ m : Fin 3,
        pick3 (Cmat (dOf dabs [(0 : ℤ), 1] [(0 : ℤ)]) 2 0)
            (Cmat (dOf dabs [(0 : ℤ), 1] [(0 : ℤ)]) 1 0)
            (Cmat (dOf dabs [(0 : ℤ), 1] [(0 : ℤ)]) 1 1) k ≤
          pick3 (Cmat (dOf dabs [(0 : ℤ), 1] [(0 : ℤ)]) 2 0)
            (Cmat (dOf dabs [(0 : ℤ), 1] [(0 : ℤ)]) 1 0)
            (Cmat (dOf dabs [(0 : ℤ), 1] [(0 : ℤ)]) 1 1) m) ∧
      (∀ m : Fin 3, m < k →
        pick3 (Cmat (dOf dabs [(0 : ℤ), 1] [(0 : ℤ)]) 2 0)
            (Cmat (dOf dabs [(0 : ℤ), 1] [(0 : ℤ)]) 1 0)
            (Cmat (dOf dabs [(0 : ℤ), 1] [(0 : ℤ)]) 1 1) k <
          pick3 (Cmat (dOf dabs [(0 : ℤ), 1] [(0 : ℤ)]) 2 0)
            (Cmat (dOf dabs [(0 : ℤ), 1] [(0 : ℤ)]) 1 0)
            (Cmat (dOf dabs [(0 : ℤ), 1] [(0 : ℤ)]) 1 1) m) :=
  ⟨⟨by decide, by decide, by decide⟩,
    claim1_tiebreak dabs [(0 : ℤ), 1] [(0 : ℤ)] 1 0 (by decide) (by decide)
      (by decide)⟩

/-- C7: in both engines the padded cost matrix satisfies the boundary
invariant C[0][0] = 0, C[i][0] = inf for i >= 1, C[0][j] = inf for j >= 1,
and every interior cell C[i][j] with i, j >= 1 is finite (the point
distance is a real number, so finiteness needs no further hypothesis). -/
theorem claim7_boundary (d : Nat → Nat → α) :
    Cmat d 0 0 = 0 ∧ (∀ i, Cmat d (i + 1) 0 = ⊤) ∧
    (∀ j, Cmat d 0 (j + 1) = ⊤) ∧
    (∀ i j, Cmat d (i + 1) (j + 1) ≠ ⊤) ∧
    Cmat_s d 0 0 = 0 ∧ (∀ i, Cmat_s d (i + 1) 0 = ⊤) ∧
    (∀ j, Cmat_s d 0 (j + 1) = ⊤) ∧
    (∀ i j, Cmat_s d (i + 1) (j + 1) ≠ ⊤) :=
  ⟨rfl, fun _ => rfl, fun _ => rfl, Cmat_ne_top d,
   rfl, fun _ => rfl, fun _ => rfl, Cmat_s_ne_top d⟩

/-- C6: when the great-circle collaborator agrees with the planar distance
on every point pair, the scalar returned by e_dtw equals the scalar
returned by s_dtw: the two engines implement the same recurrence and
boundary policy, and backpointer tracking does not affect the scalar. -/
theorem claim6_scalar_agreement [Inhabited α] (dist : (α × α) → (α × α) → α)
    (gcd : α → α → α → α → α) (t0 t1 : List (α × α))
    (hagree : ∀ p q : α × α, gcd p.1 p.2 q.1 q.2 = dist p q) :
    (e_dtw dist t0 t1).1 = s_dtw gcd t0 t1 := by
  show Cmat (dOf dist t0 t1) t0.length t1.length = _
  unfold s_dtw
  rw [Cmat_eq_Cmat_s]
  congr 1
  funext i j
  exact (hagree (t0.getD i default) (t1.getD j default)).symm

/-- C6 witness: both engines return the same scalar on a concrete pair of
planar trajectories under the taxicab distance presented both as a
point-pair function and as a four-coordinate function. -/
theorem claim6_witness :
    (e_dtw (fun p q : ℤ × ℤ => |p.1 - q.1| + |p.2 - q.2|)
        [((0 : ℤ), 0), (1, 0)] [((0 : ℤ), 1)]).1 =
      s_dtw (fun a b c e => |a - c| + |b - e|)
        [((0 : ℤ), 0), (1, 0)] [((0 : ℤ), 1)] :=
  claim6_scalar_agreement (fun p q : ℤ × ℤ => |p.1 - q.1| + |p.2 - q.2|)
    (fun a b c e => |a - c| + |b - e|) [((0 : ℤ), 0), (1, 0)]
    [((0 : ℤ), 1)] (fun p q => rfl)

/-- C3 counterexample: the claimed inequality C[i][j] >= max of the three
predecessor cells fails already at cell (1, 1) for single-point identical
trajectories under the (non-negative, metric) absolute-value distance,
because the boundary candidates are infinite while C[1][1] is finite. -/
theorem claim3_counterexample :
    ¬ (max (Cmat (dOf dabs [(0 : ℤ)] [(0 : ℤ)]) 0 1)
        (max (Cmat (dOf dabs [(0 : ℤ)] [(0 : ℤ)]) 1 0)
          (Cmat (dOf dabs [(0 : ℤ)] [(0 : ℤ)]) 0 0)) ≤
      Cmat (dOf dabs [(0 : ℤ)] [(0 : ℤ)]) 1 1) := by decide

/-- C3 amended: with a non-negative point distance the cost matrices of
both engines satisfy C[i][j] >= min(C[i][j-1], C[i-1][j-1], C[i-1][j]) for
all i, j >= 1 (min, not max: each cell adds a non-negative distance to the
smallest predecessor, and boundary-adjacent cells are finite while the
boundary itself is infinite). -/
theorem claim3_amended (d : Nat → Nat → α) (hd : ∀ i j, 0 ≤ d i j)
    (i j : Nat) :
    min (Cmat d (i + 1) j) (min (Cmat d i j) (Cmat d i (j + 1))) ≤
      Cmat d (i + 1) (j + 1) ∧
    min (Cmat_s d (i + 1) j) (min (Cmat_s d i j) (Cmat_s d i (j + 1))) ≤
      Cmat_s d (i + 1) (j + 1) := by
  constructor
  · rw [Cmat_succ_succ, pick3_argmin3]
    exact le_add_of_nonneg_left (by exact_mod_cast hd i j)
  · rw [Cmat_s_succ_succ]
    exact le_add_of_nonneg_left (by exact_mod_cast hd i j)

/-- C3 amended witness: the min-form inequality at cell (1, 1) for the
concrete instance of the counterexample. -/
theorem claim3_amended_witness :
    min (Cmat (dOf dabs [(0 : ℤ)] [(0 : ℤ)]) 1 0)
        (min (Cmat (dOf dabs [(0 : ℤ)] [(0 : ℤ)]) 0 0)
          (Cmat (dOf dabs [(0 : ℤ)] [(0 : ℤ)]) 0 1)) ≤
      Cmat (dOf dabs [(0 : ℤ)] [(0 : ℤ)]) 1 1 :=
  (claim3_amended (dOf dabs [(0 : ℤ)] [(0 : ℤ)])
    (fun i j => abs_nonneg _) 0 0).1

/-- When the distance matrix vanishes on the diagonal and is non-negative,
every diagonal cell of the cost matrix is 0. -/
theorem Cmat_diag_zero (d : Nat → Nat → α) (hnn : ∀ i j, 0 ≤ d i j)
    (hdd : ∀ m, d m m = 0) : ∀ k, Cmat d k k = 0 := by
  intro k
  induction k with
  | zero => rfl
  | succ k ih =>
      rw [Cmat_succ_succ, pick3_argmin3, hdd k, ih]
      have h1 : min (0 : WithTop α) (Cmat d k (k + 1)) = 0 :=
        min_eq_left (Cmat_nonneg d hnn k (k + 1))
      rw [h1]
      have h2 : min (Cmat d (k + 1) k) (0 : WithTop α) = 0 :=
        min_eq_right (Cmat_nonneg d hnn (k + 1) k)
      rw [h2, WithTop.coe_zero, zero_add]

/-- An interior cell whose own added point distance is positive is
positive. -/
theorem Cmat_off_pos (d : Nat → Nat → α) (hnn : ∀ i j, 0 ≤ d i j)
    (i j : Nat) (hpos : 0 < d i j) : 0 < Cmat d (i + 1) (j + 1) := by
  rw [Cmat_succ_succ, pick3_argmin3]
  have h2 : (0 : WithTop α) ≤
      min (Cmat d (i + 1) j) (min (Cmat d i j) (Cmat d i (j + 1))) :=
    le_min (Cmat_nonneg d hnn (i + 1) j)
      (le_min (Cmat_nonneg d hnn i j) (Cmat_nonneg d hnn i (j + 1)))
  calc (0 : WithTop α) < (d i j : WithTop α) := by exact_mod_cast hpos
    _ ≤ _ := le_add_of_nonneg_right h2

/-- At a diagonal cell with zero diagonal cost and strictly positive left
and up candidates, the argmin tie-break selects the diagonal predecessor. -/
theorem predCell_diag (d : Nat → Nat → α) (k : Nat)
    (hD : Cmat d k k = 0) (hL : 0 < Cmat d (k + 1) k)
    (hU : 0 < Cmat d k (k + 1)) :
    predCell d k k = (k - 1, k - 1) := by
  unfold predCell
  have hk : argmin3 (Cmat d (k + 1) k) (Cmat d k k) (Cmat d k (k + 1)) = 1 := by
    refine argmin3_eq_one ?_ ?_
    · intro hc
      rw [hD] at hc
      exact absurd (lt_of_lt_of_le hL hc.1) (lt_irrefl 0)
    · rw [hD]
      exact le_of_lt hU
  rw [hk]
  rfl

/-- When every in-range diagonal cell points diagonally, the backpointer
chain from a diagonal cell is the pure diagonal. -/
theorem chainTo_diag (d : Nat → Nat → α) (nmax : Nat)
    (hpred : ∀ k, 1 ≤ k → k ≤ nmax → predCell d k k = (k - 1, k - 1)) :
    ∀ k, k ≤ nmax → ∀ fuel, 2 * k < fuel →
      chainTo d fuel k k = (List.range (k + 1)).map (fun m => (m, m)) := by
  intro k
  induction k with
  | zero =>
      intro hk fuel hf
      obtain ⟨fuel, rfl⟩ : ∃ f, fuel = f + 1 := ⟨fuel - 1, by omega⟩
      rfl
  | succ k ih =>
      intro hk fuel hf
      obtain ⟨fuel, rfl⟩ : ∃ f, fuel = f + 1 := ⟨fuel - 1, by omega⟩
      simp only [chainTo, if_neg (by omega : ¬(k + 1 = 0 ∧ k + 1 = 0))]
      rw [hpred (k + 1) (by omega) hk]
      dsimp only
      rw [Nat.add_sub_cancel]
      rw [ih (by omega) fuel (by omega)]
      rw [List.range_succ (n := k + 1), List.map_append]
      rfl

/-- C4 counterexample: for t = [p, p] with a repeated point under the
absolute-value metric, e_dtw returns distance 0 but the reconstructed path
is [(0,0), (1,0), (1,1)], not the pure diagonal [(0,0), (1,1)]: at cell
(1,1) left, diag and up all tie at 0 and the first-minimum rule picks
left, leaving the diagonal. -/
theorem claim4_counterexample :
    (e_dtw dabs [(0 : ℤ), 0] [(0 : ℤ), 0]).1 = 0 ∧
    e_extract_dtw_warping_path (e_dtw dabs [(0 : ℤ), 0] [(0 : ℤ), 0]).2.2 3 =
      PyRes.ok [((0 : Int), (0 : Int)), (1, 0), (1, 1)] ∧
    [((0 : Int), (0 : Int)), (1, 0), (1, 1)] ≠
      [((0 : Int), (0 : Int)), (1, 1)] :=
  ⟨by decide, by decide, by decide⟩

/-- C4 amended: for t0 = t1 = t non-empty under a metric point distance,
e_dtw returns distance 0 unconditionally (repeated points included); and
provided consecutive points of t are distinct, the reconstructed path is
the pure diagonal (0,0), (1,1), ..., (n-1, n-1).  (When t repeats a point
at consecutive positions the left-biased tie-break can route the path off
the diagonal, as the counterexample shows.) -/
theorem claim4_amended {P : Type} [Inhabited P] (d : P → P → α)
    (t : List P) (ht : t ≠ []) (hnn : ∀ x y, 0 ≤ d x y)
    (hzero : ∀ x y, d x y = 0 ↔ x = y)
    (fuel : Nat) (hf : 2 * t.length - 1 ≤ fuel) :
    (e_dtw d t t).1 = 0 ∧
    ((∀ k, k + 1 < t.length →
        t.getD k default ≠ t.getD (k + 1) default) →
      e_extract_dtw_warping_path (e_dtw d t t).2.2 fuel =
        PyRes.ok ((List.range t.length).map
          (fun k : Nat => ((k : Int), (k : Int))))) := by
  have hn : 1 ≤ t.length := List.length_pos.mpr ht
  have hdnn : ∀ i j, 0 ≤ dOf d t t i j := fun i j => hnn _ _
  have hdd : ∀ m, dOf d t t m m = 0 := fun m => (hzero _ _).mpr rfl
  have hC0 : ∀ k, Cmat (dOf d t t) k k = 0 :=
    Cmat_diag_zero (dOf d t t) hdnn hdd
  constructor
  · show Cmat (dOf d t t) t.length t.length = 0
    exact hC0 t.length
  · intro hadj
    have hpred : ∀ k, 1 ≤ k → k ≤ t.length - 1 →
        predCell (dOf d t t) k k = (k - 1, k - 1) := by
        intro k h1 h2
        obtain ⟨m, rfl⟩ : ∃ m, k = m + 1 := ⟨k - 1, by omega⟩
        refine predCell_diag (dOf d t t) (m + 1) (hC0 (m + 1)) ?_ ?_
        · refine Cmat_off_pos (dOf d t t) hdnn (m + 1) m ?_
          refine lt_of_le_of_ne (hnn _ _) ?_
          intro hc
          exact hadj m (by omega) ((hzero _ _).mp hc.symm).symm
        · refine Cmat_off_pos (dOf d t t) hdnn m (m + 1) ?_
          refine lt_of_le_of_ne (hnn _ _) ?_
          intro hc
          exact hadj m (by omega) ((hzero _ _).mp hc.symm)
    show e_extract_dtw_warping_path
      (Wlist (dOf d t t) t.length t.length) fuel = _
    rw [extract_on_Wlist (dOf d t t) t.length t.length hn hn fuel (by omega)]
    rw [chainTo_diag (dOf d t t) (t.length - 1) hpred (t.length - 1)
      (le_refl _) fuel (by omega)]
    rw [List.map_map]
    have hlen : t.length - 1 + 1 = t.length := by omega
    rw [hlen]
    rfl

/-- C4 witness: concrete diagonal extraction for the two-point trajectory
[0, 1] under the absolute-value metric. -/
theorem claim4_witness :
    ([(0 : ℤ), 1] ≠ ([] : List ℤ)) ∧
    (e_dtw dabs [(0 : ℤ), 1] [(0 : ℤ), 1]).1 = 0 ∧
    e_extract_dtw_warping_path (e_dtw dabs [(0 : ℤ), 1] [(0 : ℤ), 1]).2.2 3 =
      PyRes.ok ((List.range ([(0 : ℤ), 1]).length).map
        (fun k : Nat => ((k : Int), (k : Int)))) := by
  have h := claim4_amended dabs [(0 : ℤ), 1] (by decide)
    (fun x y => abs_nonneg (x - y))
    (fun x y => (abs_eq_zero).trans sub_eq_zero)
    3 (by decide)
  refine ⟨by decide, h.1, h.2 ?_⟩
  intro k hk
  have hk0 : k = 0 := by
    simp only [List.length_cons, List.length_nil] at hk
    omega
  subst hk0
  decide

/-- Mapping a function over a list maps its optional last element. -/
theorem getLast?_map_eq {γ δ : Type} (f : γ → δ) :
    ∀ l : List γ, (l.map f).getLast? = l.getLast?.map f := by
  intro l
  induction l with
  | nil => rfl
  | cons a l ih =>
      cases l with
      | nil => rfl
      | cons b m =>
          rw [List.map_cons, List.map_cons, List.getLast?_cons_cons,
            ← List.map_cons, List.getLast?_cons_cons]
          exact ih

/-- C5: on any pair of non-empty trajectories, with fuel at least
n0 + n1 - 1 the extractor applied to e_dtw's backpointer matrix returns a
path that starts at (0,0), ends at (n0-1, n1-1), and advances each
coordinate by 0 or 1 at every step without ever standing still. -/
theorem claim5_path_shape {P : Type} [Inhabited P] (dist : P → P → α)
    (t0 t1 : List P) (h0 : t0 ≠ []) (h1 : t1 ≠ []) (fuel : Nat)
    (hf : t0.length + t1.length - 1 ≤ fuel) :
    ∃ path,
      e_extract_dtw_warping_path (e_dtw dist t0 t1).2.2 fuel =
        PyRes.ok path ∧
      path.head? = some ((0 : Int), (0 : Int)) ∧
      path.getLast? =
        some (((t0.length - 1 : Nat) : Int), ((t1.length - 1 : Nat) : Int)) ∧
      List.Chain' stepOK path := by
  have hn0 : 1 ≤ t0.length := List.length_pos.mpr h0
  have hn1 : 1 ≤ t1.length := List.length_pos.mpr h1
  have hsum : (t0.length - 1) + (t1.length - 1) < fuel := by omega
  refine ⟨(chainTo (dOf dist t0 t1) fuel (t0.length - 1) (t1.length - 1)).map
    (fun p => ((p.1 : Int), (p.2 : Int))), ?_, ?_, ?_, ?_⟩
  · show e_extract_dtw_warping_path
      (Wlist (dOf dist t0 t1) t0.length t1.length) fuel = _
    exact extract_on_Wlist (dOf dist t0 t1) t0.length t1.length hn0 hn1
      fuel hf
  · obtain ⟨t, ht⟩ := chainTo_cons (dOf dist t0 t1) fuel (t0.length - 1)
      (t1.length - 1) hsum
    rw [ht, List.map_cons, List.head?_cons]
    rfl
  · rw [getLast?_map_eq, chainTo_getLast (dOf dist t0 t1) fuel _ _ hsum]
    rfl
  · rw [List.chain'_map]
    refine List.Chain'.imp ?_
      (chainTo_chain (dOf dist t0 t1) fuel (t0.length - 1) (t1.length - 1)
        hsum)
    intro a b hab
    refine ⟨?_, ?_, ?_⟩
    · rcases hab.1 with h | h
      · exact Or.inl (by rw [h])
      · exact Or.inr (by rw [h]; push_cast; ring)
    · rcases hab.2.1 with h | h
      · exact Or.inl (by rw [h])
      · exact Or.inr (by rw [h]; push_cast; ring)
    · intro hc
      apply hab.2.2
      rw [Prod.ext_iff] at hc ⊢
      dsimp only at hc
      constructor
      · exact_mod_cast hc.1
      · exact_mod_cast hc.2

/-- C5 witness: the path-shape theorem instantiated at a concrete pair of
trajectories with the smallest sufficient fuel. -/
theorem claim5_witness :
    ([(0 : ℤ), 1] ≠ ([] : List ℤ) ∧ [(0 : ℤ)] ≠ ([] : List ℤ) ∧
      ([(0 : ℤ), 1]).length + ([(0 : ℤ)]).length - 1 ≤ 2) ∧
    ∃ path,
      e_extract_dtw_warping_path (e_dtw dabs [(0 : ℤ), 1] [(0 : ℤ)]).2.2 2 =
        PyRes.ok path ∧
      path.head? = some ((0 : Int), (0 : Int)) ∧
      path.getLast? =
        some (((([(0 : ℤ), 1]).length - 1 : Nat) : Int),
          ((([(0 : ℤ)]).length - 1 : Nat) : Int)) ∧
      List.Chain' stepOK path :=
  ⟨⟨by decide, by decide, by decide⟩,
    claim5_path_shape dabs [(0 : ℤ), 1] [(0 : ℤ)] (by decide) (by decide) 2
      (by decide)⟩

/-- C9 (implicit): e_dtw's backpointer matrix is a well-formed chain: the
origin cell is the only None entry, every other in-range cell stores
non-negative in-bounds indices (i', j') with i' <= i, j' <= j and
i' + j' < i + j, and consequently the extractor terminates on it with ok
within fuel n0 + n1 - 1. -/
theorem claim9_wellformed {P : Type} [Inhabited P] (dist : P → P → α)
    (t0 t1 : List P) (h0 : t0 ≠ []) (h1 : t1 ≠ []) :
    (∀ i j, i < t0.length → j < t1.length →
      ((((e_dtw dist t0 t1).2.2.getD i []).getD j none = none) ↔
        (i = 0 ∧ j = 0)) ∧
      (¬(i = 0 ∧ j = 0) → ∃ i' j' : Nat,
        ((e_dtw dist t0 t1).2.2.getD i []).getD j none =
          some ((i' : Int), (j' : Int)) ∧
        i' ≤ i ∧ j' ≤ j ∧ i' + j' < i + j)) ∧
    ∃ p, e_extract_dtw_warping_path (e_dtw dist t0 t1).2.2
      (t0.length + t1.length - 1) = PyRes.ok p := by
  have hn0 : 1 ≤ t0.length := List.length_pos.mpr h0
  have hn1 : 1 ≤ t1.length := List.length_pos.mpr h1
  constructor
  · intro i j hi hj
    have hcell : ((e_dtw dist t0 t1).2.2.getD i []).getD j none =
        Wmat (dOf dist t0 t1) i j :=
      Wlist_getD (dOf dist t0 t1) t0.length t1.length i j hi hj
    constructor
    · rw [hcell]
      constructor
      · intro hnone
        by_contra h00
        rw [Wmat_eq_predCell (dOf dist t0 t1) i j h00] at hnone
        exact Option.some_ne_none _ hnone
      · intro h00
        obtain ⟨rfl, rfl⟩ := h00
        rfl
    · intro h00
      refine ⟨(predCell (dOf dist t0 t1) i j).1,
        (predCell (dOf dist t0 t1) i j).2, ?_,
        (predCell_le (dOf dist t0 t1) i j h00).1,
        (predCell_le (dOf dist t0 t1) i j h00).2,
        predCell_sum_lt (dOf dist t0 t1) i j h00⟩
      rw [hcell]
      exact Wmat_eq_predCell (dOf dist t0 t1) i j h00
  · refine ⟨(chainTo (dOf dist t0 t1) (t0.length + t1.length - 1)
      (t0.length - 1) (t1.length - 1)).map
        (fun p => ((p.1 : Int), (p.2 : Int))), ?_⟩
    show e_extract_dtw_warping_path
      (Wlist (dOf dist t0 t1) t0.length t1.length) _ = _
    exact extract_on_Wlist (dOf dist t0 t1) t0.length t1.length hn0 hn1
      (t0.length + t1.length - 1) (le_refl _)

/-- C9 witness: the well-formedness theorem instantiated at a concrete
pair of trajectories. -/
theorem claim9_witness :
    ([(0 : ℤ), 1] ≠ ([] : List ℤ) ∧ [(0 : ℤ)] ≠ ([] : List ℤ)) ∧
    ((∀ i j, i < ([(0 : ℤ), 1]).length → j < ([(0 : ℤ)]).length →
      ((((e_dtw dabs [(0 : ℤ), 1] [(0 : ℤ)]).2.2.getD i []).getD j none =
          none) ↔ (i = 0 ∧ j = 0)) ∧
      (¬(i = 0 ∧ j = 0) → ∃ i' j' : Nat,
        ((e_dtw dabs [(0 : ℤ), 1] [(0 : ℤ)]).2.2.getD i []).getD j none =
          some ((i' : Int), (j' : Int)) ∧
        i' ≤ i ∧ j' ≤ j ∧ i' + j' < i + j)) ∧
    ∃ p, e_extract_dtw_warping_path (e_dtw dabs [(0 : ℤ), 1] [(0 : ℤ)]).2.2
      (([(0 : ℤ), 1]).length + ([(0 : ℤ)]).length - 1) = PyRes.ok p) :=
  ⟨⟨by decide, by decide⟩,
    claim9_wellformed dabs [(0 : ℤ), 1] [(0 : ℤ)] (by decide) (by decide)⟩

/-- C10 (implicit): neither engine rejects empty inputs; the loops fall
through.  Both empty: scalar 0 with empty interior matrix and empty
backpointer structure.  Exactly one empty: scalar infinity, with an empty
(n0 = 0) or degenerate list-of-empty-rows (n1 = 0) structure.  No error is
raised (the embedding of either engine cannot fail). -/
theorem claim10_empty {P : Type} [Inhabited P] [Inhabited α]
    (dist : P → P → α) (gcd : α → α → α → α → α) :
    (e_dtw dist ([] : List P) []).1 = 0 ∧
    (e_dtw dist ([] : List P) []).2.1 = [] ∧
    (e_dtw dist ([] : List P) []).2.2 = [] ∧
    (∀ t1 : List P, t1 ≠ [] →
      (e_dtw dist [] t1).1 = ⊤ ∧ (e_dtw dist [] t1).2.1 = [] ∧
      (e_dtw dist [] t1).2.2 = []) ∧
    (∀ t0 : List P, t0 ≠ [] →
      (e_dtw dist t0 []).1 = ⊤ ∧
      (e_dtw dist t0 []).2.1 =
        List.map (fun _ => []) (List.range t0.length) ∧
      (e_dtw dist t0 []).2.2 =
        List.map (fun _ => []) (List.range t0.length)) ∧
    s_dtw gcd [] [] = 0 ∧
    (∀ t1 : List (α × α), t1 ≠ [] → s_dtw gcd [] t1 = ⊤) ∧
    (∀ t0 : List (α × α), t0 ≠ [] → s_dtw gcd t0 [] = ⊤) := by
  refine ⟨rfl, rfl, rfl, ?_, ?_, rfl, ?_, ?_⟩
  · intro t1 ht1
    obtain ⟨a, m, rfl⟩ := List.exists_cons_of_ne_nil ht1
    refine ⟨?_, rfl, rfl⟩
    simp only [e_dtw, List.length_nil, List.length_cons]
    exact Cmat_zero_succ _ m.length
  · intro t0 ht0
    obtain ⟨a, m, rfl⟩ := List.exists_cons_of_ne_nil ht0
    refine ⟨?_, rfl, rfl⟩
    simp only [e_dtw, List.length_nil, List.length_cons]
    exact Cmat_succ_zero _ m.length
  · intro t1 ht1
    obtain ⟨a, m, rfl⟩ := List.exists_cons_of_ne_nil ht1
    simp only [s_dtw, List.length_nil, List.length_cons]
    exact Cmat_s_zero_succ _ m.length
  · intro t0 ht0
    obtain ⟨a, m, rfl⟩ := List.exists_cons_of_ne_nil ht0
    simp only [s_dtw, List.length_nil, List.length_cons]
    exact Cmat_s_succ_zero _ m.length

/-- C10 witness: the one-empty-side cases evaluated at concrete inputs. -/
theorem claim10_witness :
    ([(0 : ℤ)] ≠ ([] : List ℤ)) ∧
    (e_dtw dabs ([] : List ℤ) [(0 : ℤ)]).1 = ⊤ ∧
    (e_dtw dabs [(0 : ℤ)] ([] : List ℤ)).1 = ⊤ ∧
    s_dtw (fun a b c e : ℤ => |a - c| + |b - e|) [((0 : ℤ), 0)] [] = ⊤ :=
  ⟨by decide,
    ((claim10_empty dabs (fun a b c e : ℤ => |a - c| + |b - e|)).2.2.2.1
      [(0 : ℤ)] (by decide)).1,
    ((claim10_empty dabs (fun a b c e : ℤ => |a - c| + |b - e|)).2.2.2.2.1
      [(0 : ℤ)] (by decide)).1,
    (claim10_empty dabs (fun a b c e : ℤ => |a - c| + |b - e|)).2.2.2.2.2.2.2
      [((0 : ℤ), 0)] (by decide)⟩

/-- C8: for the single-point trajectories t0 = [(0,0)] and t1 = [(3,4)]
under planar Euclidean distance, e_dtw returns scalar distance exactly 5
(the 3-4-5 triangle), its backpointer matrix is [[None]], and the
extractor on that matrix returns the path [(0, 0)]. -/
theorem claim8_single_point :
    (e_dtw eucl_dist [((0 : ℝ), (0 : ℝ))] [((3 : ℝ), (4 : ℝ))]).1 =
      ((5 : ℝ) : WithTop ℝ) ∧
    (e_dtw eucl_dist [((0 : ℝ), (0 : ℝ))] [((3 : ℝ), (4 : ℝ))]).2.2 =
      [[none]] ∧
    e_extract_dtw_warping_path
      (e_dtw eucl_dist [((0 : ℝ), (0 : ℝ))] [((3 : ℝ), (4 : ℝ))]).2.2 1 =
      PyRes.ok [((0 : Int), (0 : Int))] := by
  have hW : (e_dtw eucl_dist [((0 : ℝ), (0 : ℝ))]
      [((3 : ℝ), (4 : ℝ))]).2.2 = [[none]] := by
    show Wlist (dOf eucl_dist [((0 : ℝ), (0 : ℝ))] [((3 : ℝ), (4 : ℝ))])
      1 1 = [[none]]
    simp [Wlist, Wmat, List.range_succ]
  refine ⟨?_, hW, ?_⟩
  · have hd : dOf eucl_dist [((0 : ℝ), (0 : ℝ))] [((3 : ℝ), (4 : ℝ))] 0 0 =
        (5 : ℝ) := by
      show Real.sqrt (((0 : ℝ) - 3) ^ 2 + ((0 : ℝ) - 4) ^ 2) = 5
      rw [show ((0 : ℝ) - 3) ^ 2 + ((0 : ℝ) - 4) ^ 2 = 5 ^ 2 by norm_num]
      exact Real.sqrt_sq (by norm_num)
    show Cmat (dOf eucl_dist [((0 : ℝ), (0 : ℝ))] [((3 : ℝ), (4 : ℝ))])
      (0 + 1) (0 + 1) = ((5 : ℝ) : WithTop ℝ)
    rw [Cmat_succ_succ, hd]
    have hk : argmin3
        (Cmat (dOf eucl_dist [((0 : ℝ), (0 : ℝ))] [((3 : ℝ), (4 : ℝ))]) (0 + 1) 0)
        (Cmat (dOf eucl_dist [((0 : ℝ), (0 : ℝ))] [((3 : ℝ), (4 : ℝ))]) 0 0)
        (Cmat (dOf eucl_dist [((0 : ℝ), (0 : ℝ))] [((3 : ℝ), (4 : ℝ))]) 0 (0 + 1))
        = 1 := by
      rw [Cmat_succ_zero, Cmat_zero_zero, Cmat_zero_succ]
      refine argmin3_eq_one ?_ ?_
      · intro hc
        exact WithTop.zero_ne_top (top_le_iff.mp hc.1)
      · exact le_top
    rw [hk]
    show ((5 : ℝ) : WithTop ℝ) +
      Cmat (dOf eucl_dist [((0 : ℝ), (0 : ℝ))] [((3 : ℝ), (4 : ℝ))]) 0 0 =
      ((5 : ℝ) : WithTop ℝ)
    rw [Cmat_zero_zero, add_zero]
  · rw [hW]
    decide

/-- On the 1 x 2 backpointer matrix [[None, (0, 1)]] the walk revisits
cell (0, 1) forever: no amount of fuel makes the loop return or raise. -/
theorem extractLoop_cyclic :
    ∀ fuel acc,
      extractLoop [[none, some ((0 : Int), (1 : Int))]] acc
        (some ((0 : Int), (1 : Int))) fuel = PyRes.dvg := by
  intro fuel
  induction fuel with
  | zero => intro acc; rfl
  | succ fuel ih =>
      intro acc
      show extractLoop [[none, some ((0 : Int), (1 : Int))]]
        (acc ++ [((0 : Int), (1 : Int))]) (some ((0 : Int), (1 : Int)))
        fuel = PyRes.dvg
      exact ih (acc ++ [((0 : Int), (1 : Int))])

/-- C2: the reconstructor has no input guard and no step bound.  An empty
W raises IndexError only incidentally (evaluating len(W[0])); a backpointer
that indexes past the end of W raises IndexError from the subscript; but a
backpointer chain that never reaches (0,0) — here the 1 x 2 matrix
[[None, (0,1)]] whose chain cycles at (0,1), so it does not reach (0,0)
within n0 + n1 = 3 steps — makes the walk loop forever instead of failing
with an invalid-input error: after any number of steps it has neither
returned nor raised. -/
theorem claim2_unbounded_walk :
    (∀ fuel, e_extract_dtw_warping_path
      ([] : List (List (Option (Int × Int)))) fuel =
        PyRes.err "IndexError") ∧
    (∀ fuel, e_extract_dtw_warping_path
      [[none, some ((5 : Int), (0 : Int))]] (fuel + 2) =
        PyRes.err "IndexError") ∧
    (∀ fuel, e_extract_dtw_warping_path
      [[none, some ((0 : Int), (1 : Int))]] fuel = PyRes.dvg) := by
  refine ⟨fun fuel => rfl, fun fuel => rfl, fun fuel => ?_⟩
  show extractLoop [[none, some ((0 : Int), (1 : Int))]] []
    (some ((0 : Int), (1 : Int))) fuel = PyRes.dvg
  exact extractLoop_cyclic fuel []
